import Mathlib

/-
Verification of the CodeCompass navigation core: a shallow embedding of the
structural extractor (data_processing/ast_parser.py), the graph loader
(data_processing/build_graph.py), the chunk indexer and offline search
(data_processing/build_bm25_index.py), and the serve-time BM25 backend
(codecompass-cli/codecompass/search.py, harness/sdk/tools.py), together with
theorems settling the specification's claims about them.
-/

namespace CodeCompass

/-! ## Tokenizer (data_processing/build_bm25_index.py, `tokenize`) -/

/-- Embedding of `re.sub(r'([a-z])([A-Z])', r'\1 \2', text)`: insert a space
between each lowercase letter that is immediately followed by an uppercase
letter.  After a match the regex engine resumes past both letters; resuming at
the uppercase letter instead is equivalent because the pattern's first
character class excludes uppercase letters, so it can never begin a match. -/
def camelSplit : List Char → List Char
  | a :: b :: rest =>
    if a.isLower && b.isUpper then a :: ' ' :: camelSplit (b :: rest)
    else a :: camelSplit (b :: rest)
  | l => l

/-- Character class `[a-zA-Z0-9_]` of the substitution step. -/
def isWordChar (c : Char) : Bool := c.isAlphanum || c = '_'

/-- Accumulator-based splitting on whitespace, dropping empty pieces; the
embedding of Python's `str.split()` with no argument. -/
def splitWsAux : List Char → List Char → List String
  | [], acc => if acc.isEmpty then [] else [String.mk acc.reverse]
  | c :: rest, acc =>
    if c.isWhitespace then
      if acc.isEmpty then splitWsAux rest []
      else String.mk acc.reverse :: splitWsAux rest []
    else splitWsAux rest (c :: acc)

def splitWs (cs : List Char) : List String := splitWsAux cs []

/-- Embedding of `tokenize` from build_bm25_index.py: split camelCase, replace
every character outside `[a-zA-Z0-9_]` by a space, lowercase, split on
whitespace, and drop tokens of length at most 1. -/
def tokenize (text : String) : List String :=
  let cs := camelSplit text.toList
  let cs := cs.map fun c => if isWordChar c then c else ' '
  (splitWs (cs.map Char.toLower)).filter fun t => t.length > 1

/-- Embedding of the query tokenization in `BM25Backend.search` and in the
tool-call `semantic_search`: `query.lower().split()`. -/
def serveQueryTokens (query : String) : List String :=
  splitWs (query.toList.map Char.toLower)

/-! ## Edge records and the Neo4j loader (data_processing/build_graph.py) -/

/-- One record of the edge-list artifact produced by the extractor:
`{"source": ..., "target": ..., "relation": ..., "meta": ...?}`. -/
structure Edge where
  source : String
  target : String
  relation : String
  meta : Option String
deriving DecidableEq, Repr

/-- The graph state owned by the store: `(:File {path})` nodes and typed
relationships, identified by `(source path, relation type, target path)`.
`MERGE` semantics make both sets duplicate-free, hence finite sets. -/
@[ext]
structure GraphState where
  nodes : Finset String
  rels : Finset (String × String × String)
deriving DecidableEq

def emptyGraph : GraphState := ⟨∅, ∅⟩

/-- One edge of the bulk `UNWIND`: `MERGE (a:File {path: source})`,
`MERGE (b:File {path: target})`, then merge one relationship of type `rel`
from `a` to `b` (`apoc.merge.relationship` with empty property maps, or the
explicit `MERGE (a)-[:REL]->(b)` of the fallback). -/
def mergeEdge (g : GraphState) (src rel tgt : String) : GraphState :=
  ⟨insert tgt (insert src g.nodes), insert (src, rel, tgt) g.rels⟩

/-- Embedding of `load_edges` (the APOC path).  The batching by 100 does not
change the resulting state: the same edges are merged in the same order. -/
def load_edges (g : GraphState) (edges : List Edge) : GraphState :=
  edges.foldl (fun g e => mergeEdge g e.source e.relation e.target) g

/-- One bulk statement of the fallback loader: every edge of `batch` is merged
with the hard-coded relationship type `relation`. -/
def load_relation (g : GraphState) (relation : String) (batch : List Edge) : GraphState :=
  batch.foldl (fun g e => mergeEdge g e.source relation e.target) g

/-- Embedding of `load_edges_no_apoc`: one bulk statement per relation type in
`["IMPORTS", "INHERITS", "INSTANTIATES"]`, each over the edges whose
`relation` field equals that type.  The source skips an empty batch, which
merges nothing either way. -/
def load_edges_no_apoc (g : GraphState) (edges : List Edge) : GraphState :=
  ["IMPORTS", "INHERITS", "INSTANTIATES"].foldl
    (fun g relation => load_relation g relation (edges.filter fun e => e.relation == relation)) g

/-- Node count reported by `verify_graph`. -/
def nodeCount (g : GraphState) : Nat := g.nodes.card

/-- Per-relation edge count (`Counter(e["relation"] ...)` granularity). -/
def relCount (g : GraphState) (relation : String) : Nat :=
  (g.rels.filter fun r => r.2.1 = relation).card

theorem mem_load_edges_nodes (g : GraphState) (edges : List Edge) (x : String) :
    x ∈ (load_edges g edges).nodes ↔
      x ∈ g.nodes ∨ ∃ e ∈ edges, x = e.source ∨ x = e.target := by
  induction edges generalizing g with
  | nil => simp [load_edges]
  | cons e es ih =>
    simp only [load_edges, List.foldl_cons] at *
    rw [ih]
    simp only [mergeEdge, Finset.mem_insert, List.mem_cons]
    aesop

theorem mem_load_edges_rels (g : GraphState) (edges : List Edge)
    (r : String × String × String) :
    r ∈ (load_edges g edges).rels ↔
      r ∈ g.rels ∨ ∃ e ∈ edges, r = (e.source, e.relation, e.target) := by
  induction edges generalizing g with
  | nil => simp [load_edges]
  | cons e es ih =>
    simp only [load_edges, List.foldl_cons] at *
    rw [ih]
    simp only [mergeEdge, Finset.mem_insert, List.mem_cons]
    aesop

theorem mem_load_relation_nodes (g : GraphState) (relation : String) (batch : List Edge)
    (x : String) :
    x ∈ (load_relation g relation batch).nodes ↔
      x ∈ g.nodes ∨ ∃ e ∈ batch, x = e.source ∨ x = e.target := by
  induction batch generalizing g with
  | nil => simp [load_relation]
  | cons e es ih =>
    simp only [load_relation, List.foldl_cons] at *
    rw [ih]
    simp only [mergeEdge, Finset.mem_insert, List.mem_cons]
    aesop

theorem mem_load_relation_rels (g : GraphState) (relation : String) (batch : List Edge)
    (r : String × String × String) :
    r ∈ (load_relation g relation batch).rels ↔
      r ∈ g.rels ∨ ∃ e ∈ batch, r = (e.source, relation, e.target) := by
  induction batch generalizing g with
  | nil => simp [load_relation]
  | cons e es ih =>
    simp only [load_relation, List.foldl_cons] at *
    rw [ih]
    simp only [mergeEdge, Finset.mem_insert, List.mem_cons]
    aesop

theorem mem_no_apoc_nodes (g : GraphState) (edges : List Edge) (x : String) :
    x ∈ (load_edges_no_apoc g edges).nodes ↔
      x ∈ g.nodes ∨ ∃ e ∈ edges,
        (e.relation = "IMPORTS" ∨ e.relation = "INHERITS" ∨ e.relation = "INSTANTIATES") ∧
        (x = e.source ∨ x = e.target) := by
  simp only [load_edges_no_apoc, List.foldl_cons, List.foldl_nil]
  rw [mem_load_relation_nodes, mem_load_relation_nodes, mem_load_relation_nodes]
  simp only [List.mem_filter, beq_iff_eq]
  constructor
  · rintro (((h | ⟨e, ⟨he, hrel⟩, hx⟩) | ⟨e, ⟨he, hrel⟩, hx⟩) | ⟨e, ⟨he, hrel⟩, hx⟩)
    · exact Or.inl h
    · exact Or.inr ⟨e, he, Or.inl hrel, hx⟩
    · exact Or.inr ⟨e, he, Or.inr (Or.inl hrel), hx⟩
    · exact Or.inr ⟨e, he, Or.inr (Or.inr hrel), hx⟩
  · rintro (h | ⟨e, he, (hrel | hrel | hrel), hx⟩)
    · exact Or.inl (Or.inl (Or.inl h))
    · exact Or.inl (Or.inl (Or.inr ⟨e, ⟨he, hrel⟩, hx⟩))
    · exact Or.inl (Or.inr ⟨e, ⟨he, hrel⟩, hx⟩)
    · exact Or.inr ⟨e, ⟨he, hrel⟩, hx⟩

theorem mem_no_apoc_rels (g : GraphState) (edges : List Edge)
    (r : String × String × String) :
    r ∈ (load_edges_no_apoc g edges).rels ↔
      r ∈ g.rels ∨ ∃ e ∈ edges,
        (e.relation = "IMPORTS" ∨ e.relation = "INHERITS" ∨ e.relation = "INSTANTIATES") ∧
        r = (e.source, e.relation, e.target) := by
  simp only [load_edges_no_apoc, List.foldl_cons, List.foldl_nil]
  rw [mem_load_relation_rels, mem_load_relation_rels, mem_load_relation_rels]
  simp only [List.mem_filter, beq_iff_eq]
  constructor
  · rintro (((h | ⟨e, ⟨he, hrel⟩, hx⟩) | ⟨e, ⟨he, hrel⟩, hx⟩) | ⟨e, ⟨he, hrel⟩, hx⟩)
    · exact Or.inl h
    · exact Or.inr ⟨e, he, Or.inl hrel, by rw [hx, hrel]⟩
    · exact Or.inr ⟨e, he, Or.inr (Or.inl hrel), by rw [hx, hrel]⟩
    · exact Or.inr ⟨e, he, Or.inr (Or.inr hrel), by rw [hx, hrel]⟩
  · rintro (h | ⟨e, he, (hrel | hrel | hrel), hx⟩)
    · exact Or.inl (Or.inl (Or.inl h))
    · exact Or.inl (Or.inl (Or.inr ⟨e, ⟨he, hrel⟩, by rw [hx, hrel]⟩))
    · exact Or.inl (Or.inr ⟨e, ⟨he, hrel⟩, by rw [hx, hrel]⟩)
    · exact Or.inr ⟨e, ⟨he, hrel⟩, by rw [hx, hrel]⟩

/-- C2: the indexing tokenizer splits `"BaseRepository"` into `"base"` and
`"repository"`, but the serve-time ranking search (`BM25Backend.search` and
the tool-call `semantic_search`) tokenizes the same query as the single token
`"baserepository"`: the serve-time token list does not equal the one produced
by the indexing tokenizer. -/
theorem serve_query_tokens_mismatch_base_repository :
    tokenize "BaseRepository" = ["base", "repository"] ∧
    serveQueryTokens "BaseRepository" = ["baserepository"] ∧
    serveQueryTokens "BaseRepository" ≠ tokenize "BaseRepository" :=
  ⟨by decide, by decide, by decide⟩

/-- C4, counterexample: an edge whose relation type is not one of `IMPORTS`,
`INHERITS`, `INSTANTIATES` is merged by the APOC loader but silently dropped
by the fallback loader, so the two resulting graph states differ. -/
theorem fallback_loader_unknown_relation_counterexample :
    load_edges_no_apoc emptyGraph [⟨"a.py", "b.py", "CALLS", none⟩] ≠
      load_edges emptyGraph [⟨"a.py", "b.py", "CALLS", none⟩] := by
  decide

/-- C4, amended: for every edge list all of whose relations are among the
three types the fallback loader handles, loading with the fallback
per-relation loader produces exactly the same graph state (same `File` nodes
and same typed relationships) as the primary APOC-based loader, from the same
initial graph. -/
theorem fallback_loader_state_equivalence (g : GraphState) (edges : List Edge)
    (h : ∀ e ∈ edges,
      e.relation = "IMPORTS" ∨ e.relation = "INHERITS" ∨ e.relation = "INSTANTIATES") :
    load_edges_no_apoc g edges = load_edges g edges := by
  refine GraphState.ext ?_ ?_
  · ext x
    rw [mem_no_apoc_nodes, mem_load_edges_nodes]
    constructor
    · rintro (hx | ⟨e, he, _, hx⟩)
      · exact Or.inl hx
      · exact Or.inr ⟨e, he, hx⟩
    · rintro (hx | ⟨e, he, hx⟩)
      · exact Or.inl hx
      · exact Or.inr ⟨e, he, h e he, hx⟩
  · ext r
    rw [mem_no_apoc_rels, mem_load_edges_rels]
    constructor
    · rintro (hr | ⟨e, he, _, hr⟩)
      · exact Or.inl hr
      · exact Or.inr ⟨e, he, hr⟩
    · rintro (hr | ⟨e, he, hr⟩)
      · exact Or.inl hr
      · exact Or.inr ⟨e, he, h e he, hr⟩

/-- C4, witness: the equivalence applied to a concrete two-edge list whose
relations are among the handled types. -/
theorem fallback_loader_state_equivalence_witness :
    load_edges_no_apoc emptyGraph
        [⟨"a.py", "b.py", "IMPORTS", none⟩, ⟨"a.py", "b.py", "INHERITS", none⟩] =
      load_edges emptyGraph
        [⟨"a.py", "b.py", "IMPORTS", none⟩, ⟨"a.py", "b.py", "INHERITS", none⟩] :=
  fallback_loader_state_equivalence emptyGraph
    [⟨"a.py", "b.py", "IMPORTS", none⟩, ⟨"a.py", "b.py", "INHERITS", none⟩] (by decide)

/-- C5: loading an edge list into the empty graph and then loading the
identical list again, without clearing, leaves the graph state unchanged for
both loaders, hence the node count and every per-relation edge count equal
those after a single load: the load operation is idempotent and creates no
duplicate relationships. -/
theorem edge_load_idempotent (edges : List Edge) :
    load_edges (load_edges emptyGraph edges) edges = load_edges emptyGraph edges ∧
    load_edges_no_apoc (load_edges_no_apoc emptyGraph edges) edges =
      load_edges_no_apoc emptyGraph edges ∧
    nodeCount (load_edges (load_edges emptyGraph edges) edges) =
      nodeCount (load_edges emptyGraph edges) ∧
    ∀ relation, relCount (load_edges (load_edges emptyGraph edges) edges) relation =
      relCount (load_edges emptyGraph edges) relation := by
  have h1 : load_edges (load_edges emptyGraph edges) edges = load_edges emptyGraph edges := by
    refine GraphState.ext ?_ ?_
    · ext x
      rw [mem_load_edges_nodes]
      constructor
      · rintro (hx | ⟨e, he, hx⟩)
        · exact hx
        · rw [mem_load_edges_nodes]
          exact Or.inr ⟨e, he, hx⟩
      · exact Or.inl
    · ext r
      rw [mem_load_edges_rels]
      constructor
      · rintro (hr | ⟨e, he, hr⟩)
        · exact hr
        · rw [mem_load_edges_rels]
          exact Or.inr ⟨e, he, hr⟩
      · exact Or.inl
  have h2 : load_edges_no_apoc (load_edges_no_apoc emptyGraph edges) edges =
      load_edges_no_apoc emptyGraph edges := by
    refine GraphState.ext ?_ ?_
    · ext x
      rw [mem_no_apoc_nodes]
      constructor
      · rintro (hx | ⟨e, he, hrel, hx⟩)
        · exact hx
        · rw [mem_no_apoc_nodes]
          exact Or.inr ⟨e, he, hrel, hx⟩
      · exact Or.inl
    · ext r
      rw [mem_no_apoc_rels]
      constructor
      · rintro (hr | ⟨e, he, hrel, hr⟩)
        · exact hr
        · rw [mem_no_apoc_rels]
          exact Or.inr ⟨e, he, hrel, hr⟩
      · exact Or.inl
  exact ⟨h1, h2, by rw [h1], fun relation => by rw [h1]⟩

/-! ## Chunk extraction (data_processing/build_bm25_index.py) -/

/-- One indexed chunk: repo-relative path, kind (`"function"`, `"class"` or
`"module"`), name, and raw source text. -/
structure CodeChunk where
  file_path : String
  chunk_type : String
  name : String
  source : String
deriving DecidableEq, Repr

/-- One function/class definition as found by `ast.walk`: its kind, name,
1-based start line, and the parser's end line when available. -/
structure DefNode where
  isClassDef : Bool
  name : String
  lineno : Nat
  end_lineno : Option Nat
deriving DecidableEq, Repr

/-- Splitting on every occurrence of a separator, keeping empty pieces. -/
def splitAllOn (sep : Char) : List Char → List (List Char)
  | [] => [[]]
  | c :: rest =>
    let r := splitAllOn sep rest
    if c = sep then [] :: r
    else
      match r with
      | [] => [[c]]
      | h :: t => (c :: h) :: t

/-- Embedding of `str.splitlines()` for text whose line breaks are newline
characters: split on every newline, except that a trailing newline does not
open a final empty line. -/
def splitlines (s : String) : List String :=
  if s.toList = [] then []
  else
    let parts := (splitAllOn (Char.ofNat 10) s.toList).map String.mk
    if s.toList.getLast? = some (Char.ofNat 10) then parts.dropLast else parts

/-- Python string slicing `s[:n]` at code-point granularity. -/
def strTake (n : Nat) (s : String) : String := String.mk (s.toList.take n)

/-- The outcome of `ast.parse` on a decoded file text: the function/class
definition nodes `ast.walk` finds (in walk order), a `SyntaxError` (the one
exception the `try` of `extract_chunks` catches), or any other exception
(e.g. a `ValueError` for source containing null bytes), which escapes the
function. -/
inductive ParseOutcome where
  | parsed (defs : List DefNode)
  | syntaxError
  | otherError
deriving DecidableEq, Repr

/-- The file content as `extract_chunks` obtains it: `read_text` sits outside
the `try`, so a file whose bytes do not decode raises `UnicodeDecodeError`
out of the function; otherwise the decoded text is handed to `ast.parse`. -/
inductive FileContent where
  | undecodable
  | decoded (text : String) (parsed : ParseOutcome)
deriving DecidableEq, Repr

/-- Embedding of `extract_chunks`; `rel_path` and `stem` are the precomputed
relative path and file stem.  `none` models an exception escaping the
function: the `UnicodeDecodeError` of an undecodable read, or a
non-`SyntaxError` failure of `ast.parse` — only `SyntaxError` is caught and
turned into the whole-file module chunk.  The `hasattr(node, "lineno")`
guard of the source is always true for the matched node kinds. -/
def extract_chunks (rel_path stem : String) (content : FileContent) :
    Option (List CodeChunk) :=
  match content with
  | .undecodable => none
  | .decoded source_code parsed =>
    match parsed with
    | .otherError => none
    | .syntaxError => some [⟨rel_path, "module", stem, source_code⟩]
    | .parsed defs =>
      let lines := splitlines source_code
      let defChunks := defs.map fun d =>
        let start := d.lineno - 1
        let stop := d.end_lineno.getD (start + 20)
        (⟨rel_path, if d.isClassDef then "class" else "function", d.name,
          String.intercalate "\n" ((lines.drop start).take (stop - start))⟩ : CodeChunk)
      some (defChunks ++ [⟨rel_path, "module", stem, strTake 2000 source_code⟩])

/-- One source file as the chunk-collection loop of `build_index` sees it. -/
structure SourceFile where
  rel_path : String
  stem : String
  content : FileContent
deriving DecidableEq, Repr

/-- Embedding of the chunk-collection loop of `build_index`
(`all_chunks.extend(chunks)` inside `try`): a file whose `extract_chunks`
raises is skipped by `except Exception: continue` and contributes no
chunks. -/
def build_index_chunks (files : List SourceFile) : List CodeChunk :=
  files.foldl (fun acc f =>
    match extract_chunks f.rel_path f.stem f.content with
    | some chunks => acc ++ chunks
    | none => acc) []

theorem foldl_append_eq_flatten {α β : Type} (g : α → List β) (l : List α) (acc : List β) :
    l.foldl (fun a x => a ++ g x) acc = acc ++ (l.map g).flatten := by
  induction l generalizing acc with
  | nil => simp
  | cons x xs ih => simp [ih]

theorem build_index_chunks_eq (files : List SourceFile) :
    build_index_chunks files =
      (files.map fun f => (extract_chunks f.rel_path f.stem f.content).getD []).flatten := by
  have haux : ∀ (fs : List SourceFile) (acc : List CodeChunk),
      (fs.foldl (fun acc f =>
        match extract_chunks f.rel_path f.stem f.content with
        | some chunks => acc ++ chunks
        | none => acc) acc) =
      acc ++ (fs.map fun f => (extract_chunks f.rel_path f.stem f.content).getD []).flatten := by
    intro fs
    induction fs with
    | nil =>
      intro acc
      simp
    | cons g gs ih =>
      intro acc
      rw [List.foldl_cons]
      cases hg : extract_chunks g.rel_path g.stem g.content with
      | none => simp [hg, ih]
      | some chunks => simp [hg, ih, List.append_assoc]
  exact haux files []

/-- The module-level chunk of every run of `extract_chunks` that returns
instead of raising. -/
theorem extract_chunks_module_chunk (rel_path stem text : String) (parsed : ParseOutcome)
    (hp : parsed ≠ ParseOutcome.otherError) :
    ∃ chunks, extract_chunks rel_path stem (.decoded text parsed) = some chunks ∧
      ∃ c ∈ chunks, c.file_path = rel_path ∧ c.chunk_type = "module" ∧
        ∃ n, c.source = strTake n text := by
  cases parsed with
  | otherError => exact absurd rfl hp
  | syntaxError =>
    refine ⟨[⟨rel_path, "module", stem, text⟩], rfl,
      ⟨rel_path, "module", stem, text⟩, by simp, rfl, rfl, text.toList.length, ?_⟩
    rw [strTake, List.take_length]
    simp [String.toList]
  | parsed defs =>
    exact ⟨_, rfl, ⟨rel_path, "module", stem, strTake 2000 text⟩, by simp, rfl, rfl, 2000, rfl⟩

/-- C7, amended: every file whose content decodes and whose parse does not
raise a non-`SyntaxError` exception contributes to the collection
`build_index` assembles at least one module-kind chunk whose text is a
bounded slice `text[:n]` of the file text; a decodable file whose parse
raises `SyntaxError` yields exactly one module-level chunk spanning the
whole file; a successfully processed file never produces an empty chunk
list; but a file whose read raises `UnicodeDecodeError` — `read_text` sits
outside the `try` — or whose parse raises other than `SyntaxError` is
skipped by `build_index` and ends up with zero chunks. -/
theorem module_chunk_for_processed_files (files : List SourceFile) (f : SourceFile)
    (hf : f ∈ files) :
    (∀ text parsed, f.content = FileContent.decoded text parsed →
        parsed ≠ ParseOutcome.otherError →
      ∃ c ∈ build_index_chunks files, c.file_path = f.rel_path ∧
        c.chunk_type = "module" ∧ ∃ n, c.source = strTake n text) ∧
    (∀ text, f.content = FileContent.decoded text ParseOutcome.syntaxError →
      extract_chunks f.rel_path f.stem f.content =
        some [⟨f.rel_path, "module", f.stem, text⟩]) ∧
    (∀ chunks, extract_chunks f.rel_path f.stem f.content = some chunks → chunks ≠ []) ∧
    (f.content = FileContent.undecodable →
      extract_chunks f.rel_path f.stem f.content = none) ∧
    (∀ text, f.content = FileContent.decoded text ParseOutcome.otherError →
      extract_chunks f.rel_path f.stem f.content = none) := by
  refine ⟨?_, ?_, ?_, ?_, ?_⟩
  · intro text parsed hc hp
    obtain ⟨chunks, hch, c, hcmem, hprops⟩ :=
      extract_chunks_module_chunk f.rel_path f.stem text parsed hp
    refine ⟨c, ?_, hprops⟩
    rw [build_index_chunks_eq]
    refine List.mem_flatten.mpr ⟨chunks, ?_, hcmem⟩
    refine List.mem_map.mpr ⟨f, hf, ?_⟩
    rw [hc, hch]
    rfl
  · intro text hc
    rw [hc]
    rfl
  · intro chunks hch
    cases hcontent : f.content with
    | undecodable =>
      rw [hcontent] at hch
      cases hch
    | decoded text parsed =>
      rw [hcontent] at hch
      cases parsed with
      | otherError => cases hch
      | syntaxError =>
        obtain rfl := Option.some.inj hch
        simp
      | parsed defs =>
        obtain rfl := Option.some.inj hch
        simp
  · intro hc
    rw [hc]
    rfl
  · intro text hc
    rw [hc]
    rfl

def fileA : SourceFile := ⟨"a.py", "a", .decoded "x = 1" (.parsed [])⟩

def fileB : SourceFile := ⟨"b.py", "b", .decoded "def f(:" .syntaxError⟩

def fileBad : SourceFile := ⟨"bad.py", "bad", .undecodable⟩

/-- C7, counterexample: `bad.py` is a file of the tree whose bytes do not
decode; `read_text` raises `UnicodeDecodeError` outside the `try`,
`build_index` catches it with `except Exception: continue`, and the
collection holds chunks for the sibling file but none at all for `bad.py`:
a file of the tree ends up with zero chunks. -/
theorem unreadable_file_zero_chunks_counterexample :
    fileBad ∈ [fileA, fileBad] ∧
    (build_index_chunks [fileA, fileBad]).filter (fun c => c.file_path == "bad.py") = [] ∧
    (build_index_chunks [fileA, fileBad]).filter (fun c => c.file_path == "a.py") ≠ [] :=
  ⟨by decide, by decide, by decide⟩

/-- C7, witness: the amended claim applied at a concrete three-file tree
whose second file decodes but does not parse. -/
theorem module_chunk_for_processed_files_witness :
    ∃ c ∈ build_index_chunks [fileA, fileB, fileBad], c.file_path = fileB.rel_path ∧
      c.chunk_type = "module" ∧ ∃ n, c.source = strTake n "def f(:" :=
  (module_chunk_for_processed_files [fileA, fileB, fileBad] fileB (by decide)).1
    "def f(:" ParseOutcome.syntaxError (by decide) (by decide)

/-! ## Structural extractor (data_processing/ast_parser.py) -/

/-- A base-class or callee expression as the extractor inspects it:
`ast.Name` (giving its `.id`), `ast.Attribute` (giving its `.attr`), or any
other expression shape, which yields no name. -/
inductive PyExpr where
  | name (id : String)
  | attribute (attr : String)
  | otherExpr
deriving DecidableEq, Repr

/-- One node of the `ast.walk` traversal, restricted to the node kinds the
extractor's `if/elif` chain matches; every other node of the walk is
`otherNode`.  `importNode` carries the dotted module name of each alias of an
`ast.Import`; `importFrom` carries `node.module` and `node.level`. -/
inductive PyNode where
  | importNode (names : List String)
  | importFrom (module : Option String) (level : Nat)
  | classDef (name : String) (bases : List PyExpr)
  | callNode (func : PyExpr)
  | otherNode
deriving DecidableEq, Repr

/-- The `base_name` / `called_name` extraction from a base or callee
expression. -/
def exprName : PyExpr → Option String
  | .name id => some id
  | .attribute attr => some attr
  | .otherExpr => none

/-- The `called_name[0].isupper()` naming-convention check; an empty name
cannot occur in a real syntax tree. -/
def isUpperInitial (s : String) : Bool :=
  match s.toList with
  | [] => false
  | c :: _ => c.isUpper

/-- Popping `n` trailing package segments (`pkg_parts.pop()` guarded by
`if pkg_parts`, `n` times). -/
def popSegments (l : List String) : Nat → List String
  | 0 => l
  | n + 1 => (popSegments l n).dropLast

/-- The `module_full` computation for an `ast.ImportFrom`: a relative
reference (level > 0) is rebased onto the referencing file's
enclosing-package parts after popping one level per indirection step beyond
the first. -/
def moduleFull (pkgParts : List String) (module : String) (level : Nat) : String :=
  if 0 < level then
    let parts := popSegments pkgParts (level - 1)
    if parts = [] then module else String.intercalate "." (parts ++ [module])
  else module

/-- The deduplication key `(edge["source"], edge["target"], edge["relation"])`. -/
def edgeKey (e : Edge) : String × String × String := (e.source, e.target, e.relation)

/-- The lookup loop `for edge in edges: if edge["relation"] == "IMPORTS" and
edge["source"] == source: ...; break`: the first matching edge, if any. -/
def findImport (source : String) (edges : List Edge) : Option Edge :=
  edges.find? fun e => e.relation == "IMPORTS" && e.source == source

/-- Appending one `IMPORTS` edge when a module reference resolves inside the
tree (`resolve` embeds `resolve_import_to_path` for the fixed tree root; the
`current_file` parameter of the source is unused by it).  The guard
`if target and target != source` is modelled as the resolution succeeding
with a target different from the current file: a resolved repo-relative path
is never the empty string. -/
def addImportEdge (resolve : String → Option String) (source : String)
    (edges : List Edge) (module : String) : List Edge :=
  match resolve module with
  | some target =>
    if target ≠ source then edges ++ [⟨source, target, "IMPORTS", none⟩] else edges
  | none => edges

/-- The body of the `for base in node.bases` loop of the `ClassDef` branch. -/
def addInheritEdge (source cname : String) (edges : List Edge) (base : PyExpr) : List Edge :=
  match exprName base with
  | some base_name =>
    match findImport source edges with
    | some e => edges ++
        [⟨source, e.target, "INHERITS", some (cname ++ " inherits " ++ base_name)⟩]
    | none => edges
  | none => edges

/-- The `ast.Call` branch. -/
def addInstantiateEdge (source : String) (edges : List Edge) (func : PyExpr) : List Edge :=
  match exprName func with
  | some called_name =>
    if isUpperInitial called_name then
      match findImport source edges with
      | some e => edges ++
          [⟨source, e.target, "INSTANTIATES", some ("calls " ++ called_name ++ "()")⟩]
      | none => edges
    else edges
  | none => edges

/-- One node of the walk loop of `extract_edges`. -/
def stepNode (resolve : String → Option String) (source : String) (pkgParts : List String)
    (edges : List Edge) : PyNode → List Edge
  | .importNode names => names.foldl (addImportEdge resolve source) edges
  | .importFrom module? level =>
    match module? with
    | some module => addImportEdge resolve source edges (moduleFull pkgParts module level)
    | none => edges
  | .classDef cname bases => bases.foldl (addInheritEdge source cname) edges
  | .callNode func => addInstantiateEdge source edges func
  | .otherNode => edges

/-- The edge list accumulated by the walk loop, before deduplication. -/
def rawEdges (resolve : String → Option String) (source : String) (pkgParts : List String)
    (nodes : List PyNode) : List Edge :=
  nodes.foldl (stepNode resolve source pkgParts) []

/-- The final deduplication of `extract_edges`: keep the first edge bearing
each `(source, target, relation)` key. -/
def dedupEdgesAux (seen : List (String × String × String)) : List Edge → List Edge
  | [] => []
  | e :: rest =>
    if edgeKey e ∈ seen then dedupEdgesAux seen rest
    else e :: dedupEdgesAux (edgeKey e :: seen) rest

def dedupEdges (edges : List Edge) : List Edge := dedupEdgesAux [] edges

/-- Embedding of `extract_edges`: fold the walk sequence of one file, then
deduplicate.  The first loop of the source fills `defined_classes`, which the
rest of the function never reads, so it contributes nothing to the result. -/
def extract_edges (resolve : String → Option String) (source : String) (pkgParts : List String)
    (nodes : List PyNode) : List Edge :=
  dedupEdges (rawEdges resolve source pkgParts nodes)

/-- One parsed file handed to `parse_repo`: repo-relative path,
enclosing-package parts, and walk sequence (empty for a file whose parse
raised, which yields zero edges). -/
structure PyFile where
  rel_path : String
  pkgParts : List String
  nodes : List PyNode

/-- Embedding of `parse_repo`: the per-file edge lists concatenated in file
order (`all_edges.extend(edges)`). -/
def parse_repo (resolve : String → Option String) (files : List PyFile) : List Edge :=
  files.foldl (fun acc f => acc ++ extract_edges resolve f.rel_path f.pkgParts f.nodes) []

theorem parse_repo_eq (resolve : String → Option String) (files : List PyFile) :
    parse_repo resolve files =
      (files.map fun f => extract_edges resolve f.rel_path f.pkgParts f.nodes).flatten := by
  simpa [parse_repo] using
    foldl_append_eq_flatten
      (fun f : PyFile => extract_edges resolve f.rel_path f.pkgParts f.nodes) files []

/-- An edge of one of the two derivative relations. -/
def DerivedRel (e : Edge) : Prop := e.relation = "INHERITS" ∨ e.relation = "INSTANTIATES"

/-- Invariant of the walk loop: every accumulated edge originates at the
current file, and every derivative edge copies the target of the first
matching `IMPORTS` edge of the accumulator. -/
def ExtractInv (s : String) (edges : List Edge) : Prop :=
  (∀ e ∈ edges, e.source = s) ∧
  ∀ e ∈ edges, DerivedRel e → ∃ i, findImport s edges = some i ∧ e.target = i.target

theorem findImport_append (s : String) (l₁ l₂ : List Edge) :
    findImport s (l₁ ++ l₂) = (findImport s l₁).or (findImport s l₂) :=
  List.find?_append

theorem extractInv_nil (s : String) : ExtractInv s [] :=
  ⟨fun e he => absurd he (List.not_mem_nil e), fun e he => absurd he (List.not_mem_nil e)⟩

theorem extractInv_append_import (s t : String) (edges : List Edge)
    (h : ExtractInv s edges) :
    ExtractInv s (edges ++ [⟨s, t, "IMPORTS", none⟩]) := by
  constructor
  · intro e he
    rcases List.mem_append.mp he with he | he
    · exact h.1 e he
    · rw [List.mem_singleton.mp he]
  · intro e he hd
    rcases List.mem_append.mp he with he | he
    · obtain ⟨i, hi, ht⟩ := h.2 e he hd
      exact ⟨i, by rw [findImport_append, hi]; rfl, ht⟩
    · rw [List.mem_singleton.mp he] at hd
      rcases hd with hd | hd
      · have hd' : ("IMPORTS" : String) = "INHERITS" := hd
        exact absurd hd' (by decide)
      · have hd' : ("IMPORTS" : String) = "INSTANTIATES" := hd
        exact absurd hd' (by decide)

theorem extractInv_append_derived (s : String) (edges : List Edge) (i : Edge)
    (h : ExtractInv s edges) (hfi : findImport s edges = some i)
    (rel : String) (m : Option String) :
    ExtractInv s (edges ++ [⟨s, i.target, rel, m⟩]) := by
  have hkeep : findImport s (edges ++ [⟨s, i.target, rel, m⟩]) = some i := by
    rw [findImport_append, hfi]; rfl
  constructor
  · intro e he
    rcases List.mem_append.mp he with he | he
    · exact h.1 e he
    · rw [List.mem_singleton.mp he]
  · intro e he hd
    rcases List.mem_append.mp he with he | he
    · obtain ⟨i', hi', ht⟩ := h.2 e he hd
      rw [hfi] at hi'
      exact ⟨i, hkeep, ht.trans (congrArg Edge.target (Option.some.inj hi'.symm))⟩
    · rw [List.mem_singleton.mp he]
      exact ⟨i, hkeep, rfl⟩

theorem extractInv_addImportEdge (resolve : String → Option String) (s : String)
    (edges : List Edge) (h : ExtractInv s edges) (m : String) :
    ExtractInv s (addImportEdge resolve s edges m) := by
  cases hr : resolve m with
  | none => simpa [addImportEdge, hr] using h
  | some t =>
    by_cases ht : t ≠ s
    · simpa [addImportEdge, hr, ht] using extractInv_append_import s t edges h
    · simpa [addImportEdge, hr, ht] using h

theorem extractInv_addInheritEdge (s cname : String) (edges : List Edge)
    (h : ExtractInv s edges) (base : PyExpr) :
    ExtractInv s (addInheritEdge s cname edges base) := by
  cases hb : exprName base with
  | none => simpa [addInheritEdge, hb] using h
  | some bn =>
    cases hfi : findImport s edges with
    | none => simpa [addInheritEdge, hb, hfi] using h
    | some i =>
      simpa [addInheritEdge, hb, hfi] using extractInv_append_derived s edges i h hfi "INHERITS" _

theorem extractInv_addInstantiateEdge (s : String) (edges : List Edge)
    (h : ExtractInv s edges) (func : PyExpr) :
    ExtractInv s (addInstantiateEdge s edges func) := by
  cases hc : exprName func with
  | none => simpa [addInstantiateEdge, hc] using h
  | some cn =>
    by_cases hup : isUpperInitial cn = true
    · cases hfi : findImport s edges with
      | none => simpa [addInstantiateEdge, hc, hup, hfi] using h
      | some i =>
        simpa [addInstantiateEdge, hc, hup, hfi] using
          extractInv_append_derived s edges i h hfi "INSTANTIATES" _
    · simpa [addInstantiateEdge, hc, hup] using h

theorem foldl_preserves {α : Type} (P : List Edge → Prop) (f : List Edge → α → List Edge)
    (hf : ∀ acc x, P acc → P (f acc x)) (l : List α) (acc : List Edge) (h : P acc) :
    P (l.foldl f acc) := by
  induction l generalizing acc with
  | nil => exact h
  | cons x xs ih => exact ih (f acc x) (hf acc x h)

theorem extractInv_stepNode (resolve : String → Option String) (s : String)
    (pkgParts : List String) (edges : List Edge) (node : PyNode) (h : ExtractInv s edges) :
    ExtractInv s (stepNode resolve s pkgParts edges node) := by
  cases node with
  | importNode names =>
    exact foldl_preserves (ExtractInv s) (addImportEdge resolve s)
      (fun acc m hm => extractInv_addImportEdge resolve s acc hm m) names edges h
  | importFrom module? level =>
    cases module? with
    | none => exact h
    | some module => exact extractInv_addImportEdge resolve s edges h _
  | classDef cname bases =>
    exact foldl_preserves (ExtractInv s) (addInheritEdge s cname)
      (fun acc b hb => extractInv_addInheritEdge s cname acc hb b) bases edges h
  | callNode func => exact extractInv_addInstantiateEdge s edges h func
  | otherNode => exact h

theorem extractInv_rawEdges (resolve : String → Option String) (s : String)
    (pkgParts : List String) (nodes : List PyNode) :
    ExtractInv s (rawEdges resolve s pkgParts nodes) :=
  foldl_preserves (ExtractInv s) (stepNode resolve s pkgParts)
    (fun acc node hn => extractInv_stepNode resolve s pkgParts acc node hn) nodes []
    (extractInv_nil s)

theorem dedupEdgesAux_sublist (seen : List (String × String × String)) (l : List Edge) :
    (dedupEdgesAux seen l).Sublist l := by
  induction l generalizing seen with
  | nil => simp [dedupEdgesAux]
  | cons e rest ih =>
    unfold dedupEdgesAux
    split
    · exact (ih seen).trans (List.sublist_cons_self e rest)
    · exact (ih (edgeKey e :: seen)).cons₂ e

theorem dedupEdgesAux_key_surj (seen : List (String × String × String)) (l : List Edge)
    (e : Edge) (he : e ∈ l) :
    edgeKey e ∈ seen ∨ ∃ e' ∈ dedupEdgesAux seen l, edgeKey e' = edgeKey e := by
  induction l generalizing seen with
  | nil => cases he
  | cons a rest ih =>
    unfold dedupEdgesAux
    rcases List.mem_cons.mp he with rfl | he'
    · split
      case isTrue hk => exact Or.inl hk
      case isFalse hk => exact Or.inr ⟨e, List.mem_cons_self e _, rfl⟩
    · split
      case isTrue hk => exact ih seen he'
      case isFalse hk =>
        rcases ih (edgeKey a :: seen) he' with hmem | ⟨e', he'', hkey⟩
        · rcases List.mem_cons.mp hmem with hka | hmem'
          · exact Or.inr ⟨a, List.mem_cons_self a _, hka.symm⟩
          · exact Or.inl hmem'
        · exact Or.inr ⟨e', List.mem_cons_of_mem a he'', hkey⟩

theorem dedupEdgesAux_find?_key (pk : String × String × String → Bool)
    (l : List Edge) (seen : List (String × String × String))
    (hseen : ∀ k ∈ seen, pk k = false) :
    (dedupEdgesAux seen l).find? (fun e => pk (edgeKey e)) =
      l.find? (fun e => pk (edgeKey e)) := by
  induction l generalizing seen with
  | nil => rfl
  | cons a rest ih =>
    unfold dedupEdgesAux
    split
    case isTrue hk =>
      have h2 : List.find? (fun e => pk (edgeKey e)) (a :: rest) =
          List.find? (fun e => pk (edgeKey e)) rest :=
        List.find?_cons_of_neg _ (by simp [hseen (edgeKey a) hk])
      rw [ih seen hseen, h2]
    case isFalse hk =>
      cases hpk : pk (edgeKey a) with
      | true =>
        have h1 : List.find? (fun e => pk (edgeKey e))
            (a :: dedupEdgesAux (edgeKey a :: seen) rest) = some a :=
          List.find?_cons_of_pos _ hpk
        have h2 : List.find? (fun e => pk (edgeKey e)) (a :: rest) = some a :=
          List.find?_cons_of_pos _ hpk
        rw [h1, h2]
      | false =>
        have h1 : List.find? (fun e => pk (edgeKey e))
            (a :: dedupEdgesAux (edgeKey a :: seen) rest) =
            List.find? (fun e => pk (edgeKey e)) (dedupEdgesAux (edgeKey a :: seen) rest) :=
          List.find?_cons_of_neg _ (by simp [hpk])
        have h2 : List.find? (fun e => pk (edgeKey e)) (a :: rest) =
            List.find? (fun e => pk (edgeKey e)) rest :=
          List.find?_cons_of_neg _ (by simp [hpk])
        rw [h1, h2]
        refine ih (edgeKey a :: seen) ?_
        intro k hkmem
        rcases List.mem_cons.mp hkmem with rfl | hkmem
        · exact hpk
        · exact hseen k hkmem

theorem findImport_dedupEdges (s : String) (l : List Edge) :
    findImport s (dedupEdges l) = findImport s l :=
  dedupEdgesAux_find?_key (fun k => k.2.2 == "IMPORTS" && k.1 == s) l []
    (fun k hk => absurd hk (List.not_mem_nil k))

theorem dedupEdgesAux_not_seen (seen : List (String × String × String)) (l : List Edge) :
    ∀ e ∈ dedupEdgesAux seen l, edgeKey e ∉ seen := by
  induction l generalizing seen with
  | nil => intro e he; cases he
  | cons a rest ih =>
    unfold dedupEdgesAux
    split
    case isTrue hk => exact ih seen
    case isFalse hk =>
      intro e he
      rcases List.mem_cons.mp he with rfl | he'
      · exact hk
      · intro hmem
        exact ih (edgeKey a :: seen) e he' (List.mem_cons_of_mem _ hmem)

theorem dedupEdgesAux_key_nodup (seen : List (String × String × String)) (l : List Edge) :
    ((dedupEdgesAux seen l).map edgeKey).Nodup := by
  induction l generalizing seen with
  | nil => simp [dedupEdgesAux]
  | cons a rest ih =>
    unfold dedupEdgesAux
    split
    case isTrue hk => exact ih seen
    case isFalse hk =>
      rw [List.map_cons, List.nodup_cons]
      refine ⟨?_, ih (edgeKey a :: seen)⟩
      intro hmem
      obtain ⟨e', he', hkey⟩ := List.mem_map.mp hmem
      exact dedupEdgesAux_not_seen (edgeKey a :: seen) rest e' he'
        (by rw [hkey]; exact List.mem_cons_self _ _)

theorem extract_edges_source (resolve : String → Option String) (s : String)
    (pkgParts : List String) (nodes : List PyNode) :
    ∀ e ∈ extract_edges resolve s pkgParts nodes, e.source = s :=
  fun e he => (extractInv_rawEdges resolve s pkgParts nodes).1 e
    ((dedupEdgesAux_sublist [] _).subset he)

/-- C6: every `INHERITS` and every `INSTANTIATES` edge in the list extracted
from one file targets the target of some `IMPORTS` edge with the same source
file emitted in the same extraction pass. -/
theorem derived_edge_targets_an_import (resolve : String → Option String)
    (source : String) (pkgParts : List String) (nodes : List PyNode) (e : Edge)
    (he : e ∈ extract_edges resolve source pkgParts nodes)
    (hrel : e.relation = "INHERITS" ∨ e.relation = "INSTANTIATES") :
    ∃ i ∈ extract_edges resolve source pkgParts nodes,
      i.relation = "IMPORTS" ∧ i.source = e.source ∧ i.target = e.target := by
  have hraw : e ∈ rawEdges resolve source pkgParts nodes :=
    (dedupEdgesAux_sublist [] _).subset he
  obtain ⟨i, hfi, ht⟩ := (extractInv_rawEdges resolve source pkgParts nodes).2 e hraw hrel
  have himem : i ∈ rawEdges resolve source pkgParts nodes := List.mem_of_find?_eq_some hfi
  have hip := List.find?_some hfi
  simp only [Bool.and_eq_true, beq_iff_eq] at hip
  have hes : e.source = source := (extractInv_rawEdges resolve source pkgParts nodes).1 e hraw
  rcases dedupEdgesAux_key_surj [] _ i himem with hk | ⟨i', hi', hkey⟩
  · exact absurd hk (List.not_mem_nil _)
  · simp only [edgeKey, Prod.mk.injEq] at hkey
    refine ⟨i', hi', ?_, ?_, ?_⟩
    · rw [hkey.2.2, hip.1]
    · rw [hkey.1, hip.2, hes]
    · rw [hkey.2.1, ← ht]

/-- C10: whenever the edge list extracted from one file contains an `IMPORTS`
edge, every `INHERITS` and every `INSTANTIATES` edge of that list targets the
target of the first `IMPORTS` edge of the list: the lookup loop stops at the
first `IMPORTS` entry, irrespective of the base or callee name. -/
theorem derived_edges_share_first_import_target (resolve : String → Option String)
    (source : String) (pkgParts : List String) (nodes : List PyNode) (i e : Edge)
    (hi : findImport source (extract_edges resolve source pkgParts nodes) = some i)
    (he : e ∈ extract_edges resolve source pkgParts nodes)
    (hrel : e.relation = "INHERITS" ∨ e.relation = "INSTANTIATES") :
    e.target = i.target := by
  have hraw : findImport source (rawEdges resolve source pkgParts nodes) = some i := by
    rw [← findImport_dedupEdges]
    exact hi
  have heraw : e ∈ rawEdges resolve source pkgParts nodes :=
    (dedupEdgesAux_sublist [] _).subset he
  obtain ⟨i', hfi', ht⟩ := (extractInv_rawEdges resolve source pkgParts nodes).2 e heraw hrel
  rw [hraw] at hfi'
  obtain rfl := Option.some.inj hfi'
  exact ht

/-- A resolver for a tree holding `b.py`: module `b` resolves to it, every
other reference is external. -/
def resolveAB : String → Option String := fun m => if m = "b" then some "b.py" else none

/-- A resolver for a tree holding `b.py` and `c.py`. -/
def resolveBC : String → Option String :=
  fun m => if m = "b" then some "b.py" else if m = "c" then some "c.py" else none

/-- C1: evaluation at the failing input.  File `a.py` resolves one import
(module `b`, file `b.py`); its class `Foo` declares the base `Qux` and a call
expression invokes `MakeWidget`, neither of which names anything imported,
yet the extractor emits an `INHERITS` and an `INSTANTIATES` edge to `b.py`:
the lookup loop never compares the base/callee name with the import, it only
requires that some prior `IMPORTS` edge exists and copies the first one's
target. -/
theorem inherits_emitted_without_name_match :
    extract_edges resolveAB "a.py" []
        [.importFrom (some "b") 0, .classDef "Foo" [.name "Qux"],
         .callNode (.name "MakeWidget")] =
      [⟨"a.py", "b.py", "IMPORTS", none⟩,
       ⟨"a.py", "b.py", "INHERITS", some "Foo inherits Qux"⟩,
       ⟨"a.py", "b.py", "INSTANTIATES", some "calls MakeWidget()"⟩] := by
  decide

/-- C6, witness: the derivative `INHERITS` edge of a concrete extraction pass
targets the target of an `IMPORTS` edge of the same pass. -/
theorem derived_edge_targets_an_import_witness :
    ∃ i ∈ extract_edges resolveAB "a.py" []
        [.importFrom (some "b") 0, .classDef "Foo" [.name "Qux"]],
      i.relation = "IMPORTS" ∧
      i.source = (⟨"a.py", "b.py", "INHERITS", some "Foo inherits Qux"⟩ : Edge).source ∧
      i.target = (⟨"a.py", "b.py", "INHERITS", some "Foo inherits Qux"⟩ : Edge).target :=
  derived_edge_targets_an_import resolveAB "a.py" [] _ _ (by decide) (by decide)

/-- C10, witness: with two imports (`b.py` first, then `c.py`), the
`INHERITS` edge of the pass targets the first import's target `b.py`. -/
theorem derived_edges_share_first_import_target_witness :
    (⟨"a.py", "b.py", "INHERITS", some "Foo inherits Qux"⟩ : Edge).target =
      (⟨"a.py", "b.py", "IMPORTS", none⟩ : Edge).target :=
  derived_edges_share_first_import_target resolveBC "a.py" []
    [.importFrom (some "b") 0, .importFrom (some "c") 0, .classDef "Foo" [.name "Qux"]]
    ⟨"a.py", "b.py", "IMPORTS", none⟩ ⟨"a.py", "b.py", "INHERITS", some "Foo inherits Qux"⟩
    (by decide) (by decide) (by decide)

/-- C9: when the processed files have pairwise distinct repo-relative paths
(as the distinct members of `sorted(repo_root.rglob(...))` do), the
concatenated edge list of `parse_repo` holds no two entries with the same
`(source, target, relation)` key; and per file, the deduplicated list's first
(hence only) edge with any given key is exactly the first pre-deduplication
edge bearing that key, so the kept metadata is that of the first
occurrence. -/
theorem repo_edge_keys_unique (resolve : String → Option String) (files : List PyFile)
    (hpaths : (files.map fun f => f.rel_path).Nodup) :
    ((parse_repo resolve files).map edgeKey).Nodup ∧
    ∀ source pkgParts nodes k,
      ((extract_edges resolve source pkgParts nodes).find? fun e => edgeKey e == k) =
        ((rawEdges resolve source pkgParts nodes).find? fun e => edgeKey e == k) := by
  constructor
  · induction files with
    | nil => simp [parse_repo_eq]
    | cons f fs ih =>
      simp only [List.map_cons, List.nodup_cons] at hpaths
      rw [parse_repo_eq]
      simp only [List.map_cons, List.flatten_cons, List.map_append]
      rw [List.nodup_append]
      refine ⟨dedupEdgesAux_key_nodup [] _, ?_, ?_⟩
      · have hfs := ih hpaths.2
        rw [parse_repo_eq] at hfs
        exact hfs
      · intro k hk1 hk2
        obtain ⟨e1, he1, hke1⟩ := List.mem_map.mp hk1
        obtain ⟨e2, he2, hke2⟩ := List.mem_map.mp hk2
        obtain ⟨l, hl, hel⟩ := List.mem_flatten.mp he2
        obtain ⟨f2, hf2, rfl⟩ := List.mem_map.mp hl
        have h1 : k.1 = f.rel_path := by
          rw [← hke1]
          exact extract_edges_source resolve f.rel_path f.pkgParts f.nodes e1 he1
        have h2 : k.1 = f2.rel_path := by
          rw [← hke2]
          exact extract_edges_source resolve f2.rel_path f2.pkgParts f2.nodes e2 hel
        apply hpaths.1
        rw [← h1, h2]
        exact List.mem_map.mpr ⟨f2, hf2, rfl⟩
  · intro source pkgParts nodes k
    exact dedupEdgesAux_find?_key (fun key => key == k) _ []
      (fun key hkey => absurd hkey (List.not_mem_nil key))

/-- C9, witness: a concrete two-file tree with distinct paths. -/
theorem repo_edge_keys_unique_witness :
    ((parse_repo resolveBC
        [⟨"a.py", [], [.importFrom (some "b") 0]⟩,
         ⟨"c.py", [], [.importFrom (some "b") 0]⟩]).map edgeKey).Nodup :=
  (repo_edge_keys_unique resolveBC
    [⟨"a.py", [], [.importFrom (some "b") 0]⟩,
     ⟨"c.py", [], [.importFrom (some "b") 0]⟩] (by decide)).1

/-! ## BM25 file ranking: offline `search` (build_bm25_index.py) and the
serve-time `BM25Backend.search` (codecompass-cli/codecompass/search.py).
The scores the external `rank_bm25` model assigns to the chunks for the query
are abstracted as a list of integer scores aligned with the chunk list; every
claim about the search concerns only comparisons between scores. -/

/-- The `(chunk.file_path, score)` pairs of `zip(chunks, scores)`. -/
def filePairs (chunks : List CodeChunk) (scores : List Int) : List (String × Int) :=
  (chunks.zip scores).map fun p => (p.1.file_path, p.2)

def lookupAssoc (k : String) : List (String × Int) → Option Int
  | [] => none
  | p :: ps => if p.1 = k then some p.2 else lookupAssoc k ps

def updateAssoc (k : String) (v : Int) : List (String × Int) → List (String × Int)
  | [] => []
  | p :: ps => if p.1 = k then (k, v) :: ps else p :: updateAssoc k v ps

/-- One iteration of the aggregation loop `if chunk.file_path not in
file_scores or score > file_scores[chunk.file_path]: ...`: a Python dict is
an insertion-ordered association list whose value update keeps the key's
position. -/
def fileScoresStep (acc : List (String × Int)) (p : String × Int) : List (String × Int) :=
  match lookupAssoc p.1 acc with
  | none => acc ++ [p]
  | some s => if p.2 > s then updateAssoc p.1 p.2 acc else acc

def file_scores (pairs : List (String × Int)) : List (String × Int) :=
  pairs.foldl fileScoresStep []

/-- Stable descending insertion by score: an element is placed before the
first entry whose score does not exceed it. -/
def insertDesc {α : Type} (x : α × Int) : List (α × Int) → List (α × Int)
  | [] => [x]
  | y :: ys => if y.2 ≤ x.2 then x :: y :: ys else y :: insertDesc x ys

/-- The embedding of Python's stable `sorted(..., key=score, reverse=True)`,
which orders by descending key and keeps equal-keyed elements in their
original relative order — exactly what this insertion sort produces. -/
def sortDesc {α : Type} : List (α × Int) → List (α × Int)
  | [] => []
  | x :: xs => insertDesc x (sortDesc xs)

/-- Embedding of the offline `search`: per-file maxima, stable descending
sort, first `top_n` entries (`round(score, 4)` only formats the score). -/
def bm25_search (chunks : List CodeChunk) (scores : List Int) (top_n : Nat) :
    List (String × Int) :=
  (sortDesc (file_scores (filePairs chunks scores))).take top_n

/-- The sorted index list `sorted(range(len(scores)), key=lambda i:
scores[i], reverse=True)` of `BM25Backend.search`. -/
def sortedIndices (scores : List Int) : List Nat :=
  (sortDesc ((List.range scores.length).map fun i => (i, scores.getD i 0))).map Prod.fst

/-- The result-collection loop of `BM25Backend.search`: the first chunk seen
per file wins (`if file_path not in seen_files`), and the loop breaks once
`len(results) >= top_n`, checked after each index.  Each returned record also
carries the winning chunk's text and kind; no claim concerns those fields, so
the embedding keeps the `(file, score)` part. -/
def serveLoop (chunks : List CodeChunk) (scores : List Int) (top_n : Nat)
    (seen : List String) (results : List (String × Int)) :
    List Nat → List (String × Int)
  | [] => results
  | idx :: rest =>
    if (chunks.getD idx ⟨"", "", "", ""⟩).file_path ∈ seen then
      if top_n ≤ results.length then results
      else serveLoop chunks scores top_n seen results rest
    else
      if top_n ≤ (results ++
          [((chunks.getD idx ⟨"", "", "", ""⟩).file_path, scores.getD idx 0)]).length then
        results ++ [((chunks.getD idx ⟨"", "", "", ""⟩).file_path, scores.getD idx 0)]
      else
        serveLoop chunks scores top_n
          ((chunks.getD idx ⟨"", "", "", ""⟩).file_path :: seen)
          (results ++ [((chunks.getD idx ⟨"", "", "", ""⟩).file_path, scores.getD idx 0)]) rest

/-- Embedding of `BM25Backend.search`: truncate to the `top_n`
highest-scoring chunk indices, then keep the first chunk seen per file. -/
def bm25_backend_search (chunks : List CodeChunk) (scores : List Int) (top_n : Nat) :
    List (String × Int) :=
  serveLoop chunks scores top_n [] [] ((sortedIndices scores).take top_n)

/-- Specification-side helper: the distinct entries of a list in
first-occurrence order. -/
def firstOccAux (seen : List String) : List String → List String
  | [] => []
  | x :: xs => if x ∈ seen then firstOccAux seen xs else x :: firstOccAux (x :: seen) xs

def firstOcc (l : List String) : List String := firstOccAux [] l

def maxOf : List Int → Int
  | [] => 0
  | v :: vs => vs.foldl max v

/-- Specification-side helper: the maximum score among a file's chunks, read
off the aligned pair list. -/
def maxScoreFor (pairs : List (String × Int)) (f : String) : Int :=
  maxOf ((pairs.filter fun p => p.1 = f).map Prod.snd)

/-- Specification-side description of the aggregation: the files in
first-occurrence order, each with the maximum score among its chunks. -/
def specFileScores (pairs : List (String × Int)) : List (String × Int) :=
  (firstOcc (pairs.map Prod.fst)).map fun f => (f, maxScoreFor pairs f)

theorem mem_firstOccAux (seen : List String) (l : List String) (x : String) :
    x ∈ firstOccAux seen l ↔ x ∈ l ∧ x ∉ seen := by
  induction l generalizing seen with
  | nil => simp [firstOccAux]
  | cons a as ih =>
    unfold firstOccAux
    split
    case isTrue ha =>
      rw [ih seen]
      constructor
      · rintro ⟨hx, hs⟩
        exact ⟨List.mem_cons_of_mem a hx, hs⟩
      · rintro ⟨hx, hs⟩
        rcases List.mem_cons.mp hx with rfl | hx
        · exact absurd ha hs
        · exact ⟨hx, hs⟩
    case isFalse ha =>
      rw [List.mem_cons, ih (a :: seen)]
      constructor
      · rintro (h | ⟨hx, hs⟩)
        · exact ⟨List.mem_cons.mpr (Or.inl h), by rw [h]; exact ha⟩
        · exact ⟨List.mem_cons_of_mem a hx, fun hmem => hs (List.mem_cons_of_mem a hmem)⟩
      · rintro ⟨hx, hs⟩
        rcases List.mem_cons.mp hx with rfl | hx
        · exact Or.inl rfl
        · by_cases hxa : x = a
          · exact Or.inl hxa
          · exact Or.inr ⟨hx, fun hmem => by
              rcases List.mem_cons.mp hmem with h | h
              · exact hxa h
              · exact hs h⟩

theorem nodup_firstOccAux (seen : List String) (l : List String) :
    (firstOccAux seen l).Nodup := by
  induction l generalizing seen with
  | nil => simp [firstOccAux]
  | cons a as ih =>
    unfold firstOccAux
    split
    case isTrue ha => exact ih seen
    case isFalse ha =>
      rw [List.nodup_cons]
      refine ⟨fun hmem => ?_, ih (a :: seen)⟩
      exact ((mem_firstOccAux (a :: seen) as a).mp hmem).2 (List.mem_cons_self a seen)

theorem firstOccAux_append (seen : List String) (l : List String) (x : String) :
    firstOccAux seen (l ++ [x]) =
      firstOccAux seen l ++ (if x ∈ seen ∨ x ∈ l then [] else [x]) := by
  induction l generalizing seen with
  | nil =>
    simp only [List.nil_append, firstOccAux]
    split
    case isTrue h => simp [h]
    case isFalse h => simp [firstOccAux, h]
  | cons a as ih =>
    simp only [List.cons_append]
    unfold firstOccAux
    split
    case isTrue ha =>
      rw [ih seen]
      by_cases hx : x ∈ seen ∨ x ∈ as
      · rw [if_pos hx, if_pos (by rcases hx with h | h; exact Or.inl h; exact Or.inr (List.mem_cons_of_mem a h))]
      · have : ¬(x ∈ seen ∨ x ∈ a :: as) := by
          rintro (h | h)
          · exact hx (Or.inl h)
          · rcases List.mem_cons.mp h with rfl | h
            · exact hx (Or.inl ha)
            · exact hx (Or.inr h)
        rw [if_neg hx, if_neg this]
    case isFalse ha =>
      rw [List.cons_append, ih (a :: seen)]
      by_cases hx : x ∈ a :: seen ∨ x ∈ as
      · rw [if_pos hx, if_pos (by
          rcases hx with h | h
          · rcases List.mem_cons.mp h with rfl | h
            · exact Or.inr (List.mem_cons_self x as)
            · exact Or.inl h
          · exact Or.inr (List.mem_cons_of_mem a h))]
      · have : ¬(x ∈ seen ∨ x ∈ a :: as) := by
          rintro (h | h)
          · exact hx (Or.inl (List.mem_cons_of_mem a h))
          · rcases List.mem_cons.mp h with rfl | h
            · exact hx (Or.inl (List.mem_cons_self x seen))
            · exact hx (Or.inr h)
        rw [if_neg hx, if_neg this]

theorem mem_firstOcc (l : List String) (x : String) : x ∈ firstOcc l ↔ x ∈ l := by
  rw [firstOcc, mem_firstOccAux]
  simp

theorem nodup_firstOcc (l : List String) : (firstOcc l).Nodup :=
  nodup_firstOccAux [] l

theorem firstOcc_append (l : List String) (x : String) :
    firstOcc (l ++ [x]) = firstOcc l ++ if x ∈ l then [] else [x] := by
  show firstOccAux [] (l ++ [x]) = firstOccAux [] l ++ _
  rw [firstOccAux_append]
  congr 1
  simp

theorem maxOf_cons_append (a : Int) (as : List Int) (v : Int) :
    maxOf ((a :: as) ++ [v]) = max (maxOf (a :: as)) v := by
  simp [maxOf, List.foldl_append]

theorem filter_key_append (ps : List (String × Int)) (p : String × Int) (f : String) :
    ((ps ++ [p]).filter fun q => q.1 = f) =
      (ps.filter fun q => q.1 = f) ++ if p.1 = f then [p] else [] := by
  rw [List.filter_append]
  congr 1
  by_cases hp : p.1 = f <;> simp [hp]

theorem maxScoreFor_append_ne (ps : List (String × Int)) (p : String × Int) (f : String)
    (hf : p.1 ≠ f) : maxScoreFor (ps ++ [p]) f = maxScoreFor ps f := by
  unfold maxScoreFor
  rw [filter_key_append, if_neg hf, List.append_nil]

theorem maxScoreFor_append_self_not_mem (ps : List (String × Int)) (p : String × Int)
    (hp : p.1 ∉ ps.map Prod.fst) : maxScoreFor (ps ++ [p]) p.1 = p.2 := by
  unfold maxScoreFor
  rw [filter_key_append, if_pos rfl]
  have hnil : (ps.filter fun q => q.1 = p.1) = [] := by
    rw [List.filter_eq_nil_iff]
    intro q hq
    simp only [decide_eq_true_eq]
    intro hq1
    exact hp (List.mem_map.mpr ⟨q, hq, hq1⟩)
  rw [hnil]
  rfl

theorem maxScoreFor_append_self_mem (ps : List (String × Int)) (p : String × Int)
    (hp : p.1 ∈ ps.map Prod.fst) :
    maxScoreFor (ps ++ [p]) p.1 = max (maxScoreFor ps p.1) p.2 := by
  unfold maxScoreFor
  rw [filter_key_append, if_pos rfl]
  obtain ⟨q, hq, hq1⟩ := List.mem_map.mp hp
  have hne : (ps.filter fun r => r.1 = p.1) ≠ [] := by
    intro hnil
    have hq' := List.filter_eq_nil_iff.mp hnil q hq
    simp [hq1] at hq'
  obtain ⟨a, as, heq⟩ := List.exists_cons_of_ne_nil hne
  rw [heq]
  simp only [List.map_append, List.map_cons, List.map_nil]
  exact maxOf_cons_append a.2 (as.map Prod.snd) p.2

theorem lookupAssoc_map (keys : List String) (g : String → Int) (k : String) :
    lookupAssoc k (keys.map fun f => (f, g f)) =
      if k ∈ keys then some (g k) else none := by
  induction keys with
  | nil => simp [lookupAssoc]
  | cons a as ih =>
    simp only [List.map_cons]
    unfold lookupAssoc
    by_cases ha : a = k
    · subst ha
      simp
    · rw [if_neg ha, ih]
      by_cases hk : k ∈ as
      · rw [if_pos hk, if_pos (List.mem_cons_of_mem a hk)]
      · rw [if_neg hk, if_neg (by
          intro h
          rcases List.mem_cons.mp h with h | h
          · exact ha h.symm
          · exact hk h)]

theorem updateAssoc_map (keys : List String) (g : String → Int) (k : String) (v : Int)
    (hnd : keys.Nodup) :
    updateAssoc k v (keys.map fun f => (f, g f)) =
      keys.map fun f => (f, if f = k then v else g f) := by
  induction keys with
  | nil => rfl
  | cons a as ih =>
    rw [List.nodup_cons] at hnd
    simp only [List.map_cons]
    unfold updateAssoc
    by_cases ha : a = k
    · subst ha
      rw [if_pos rfl, if_pos rfl]
      congr 1
      symm
      apply List.map_congr_left
      intro f hf
      rw [if_neg (show f ≠ a from fun h => hnd.1 (h ▸ hf))]
    · rw [if_neg ha, if_neg ha, ih hnd.2]

theorem fileScoresStep_spec (ps : List (String × Int)) (p : String × Int) :
    fileScoresStep (specFileScores ps) p = specFileScores (ps ++ [p]) := by
  have hkeys : (ps ++ [p]).map Prod.fst = ps.map Prod.fst ++ [p.1] := by simp
  by_cases hp : p.1 ∈ ps.map Prod.fst
  · have hlook : lookupAssoc p.1 (specFileScores ps) = some (maxScoreFor ps p.1) := by
      rw [specFileScores, lookupAssoc_map, if_pos ((mem_firstOcc _ p.1).mpr hp)]
    simp only [fileScoresStep, hlook]
    have hfo : firstOcc ((ps ++ [p]).map Prod.fst) = firstOcc (ps.map Prod.fst) := by
      rw [hkeys, firstOcc_append, if_pos hp, List.append_nil]
    by_cases hgt : p.2 > maxScoreFor ps p.1
    · rw [if_pos hgt, specFileScores, updateAssoc_map _ _ _ _ (nodup_firstOcc _),
        specFileScores, hfo]
      apply List.map_congr_left
      intro f hf
      by_cases hfp : f = p.1
      · subst hfp
        rw [if_pos rfl, maxScoreFor_append_self_mem ps p hp,
          max_eq_right (le_of_lt hgt)]
      · rw [if_neg hfp, maxScoreFor_append_ne ps p f (fun h => hfp h.symm)]
    · rw [if_neg hgt, specFileScores, specFileScores, hfo]
      apply List.map_congr_left
      intro f hf
      by_cases hfp : f = p.1
      · subst hfp
        rw [maxScoreFor_append_self_mem ps p hp, max_eq_left (not_lt.mp hgt)]
      · rw [maxScoreFor_append_ne ps p f (fun h => hfp h.symm)]
  · have hlook : lookupAssoc p.1 (specFileScores ps) = none := by
      rw [specFileScores, lookupAssoc_map,
        if_neg (show p.1 ∉ firstOcc (ps.map Prod.fst) from
          fun h => hp ((mem_firstOcc _ p.1).mp h))]
    simp only [fileScoresStep, hlook]
    rw [specFileScores, specFileScores, hkeys, firstOcc_append, if_neg hp, List.map_append]
    congr 1
    · apply List.map_congr_left
      intro f hf
      have hfk : f ∈ ps.map Prod.fst := (mem_firstOcc _ f).mp hf
      rw [maxScoreFor_append_ne ps p f (fun h => hp (h ▸ hfk))]
    · rw [List.map_cons, List.map_nil, maxScoreFor_append_self_not_mem ps p hp]

theorem file_scores_eq_spec (pairs : List (String × Int)) :
    file_scores pairs = specFileScores pairs := by
  induction pairs using List.reverseRecOn with
  | nil => rfl
  | append_singleton ps p ih =>
    show (ps ++ [p]).foldl fileScoresStep [] = _
    rw [List.foldl_append]
    show fileScoresStep (file_scores ps) p = _
    rw [ih, fileScoresStep_spec]

theorem mem_insertDesc {α : Type} (x : α × Int) (l : List (α × Int)) (z : α × Int) :
    z ∈ insertDesc x l ↔ z = x ∨ z ∈ l := by
  induction l with
  | nil => simp [insertDesc]
  | cons y ys ih =>
    unfold insertDesc
    split
    · simp only [List.mem_cons]
    · simp only [List.mem_cons, ih]
      tauto

theorem insertDesc_perm {α : Type} (x : α × Int) (l : List (α × Int)) :
    (insertDesc x l).Perm (x :: l) := by
  induction l with
  | nil => exact List.Perm.refl _
  | cons y ys ih =>
    unfold insertDesc
    split
    · exact List.Perm.refl _
    · exact (List.Perm.cons y ih).trans (List.Perm.swap x y ys)

theorem sortDesc_perm {α : Type} (l : List (α × Int)) : (sortDesc l).Perm l := by
  induction l with
  | nil => exact List.Perm.refl _
  | cons x xs ih => exact (insertDesc_perm x (sortDesc xs)).trans (List.Perm.cons x ih)

theorem sortedDesc_insertDesc {α : Type} (x : α × Int) (l : List (α × Int))
    (h : l.Pairwise fun a b => b.2 ≤ a.2) :
    (insertDesc x l).Pairwise fun a b => b.2 ≤ a.2 := by
  induction l with
  | nil => simp [insertDesc]
  | cons y ys ih =>
    rw [List.pairwise_cons] at h
    unfold insertDesc
    split
    case isTrue hyx =>
      rw [List.pairwise_cons]
      refine ⟨?_, List.pairwise_cons.mpr h⟩
      intro z hz
      rcases List.mem_cons.mp hz with rfl | hz
      · exact hyx
      · exact le_trans (h.1 z hz) hyx
    case isFalse hyx =>
      rw [List.pairwise_cons]
      refine ⟨?_, ih h.2⟩
      intro z hz
      rcases (mem_insertDesc x ys z).mp hz with rfl | hz
      · exact le_of_not_le hyx
      · exact h.1 z hz

theorem sortDesc_sorted {α : Type} (l : List (α × Int)) :
    (sortDesc l).Pairwise fun a b => b.2 ≤ a.2 := by
  induction l with
  | nil => simp [sortDesc]
  | cons x xs ih => exact sortedDesc_insertDesc x (sortDesc xs) ih

theorem filter_insertDesc {α : Type} (x : α × Int) (l : List (α × Int)) (sc : Int) :
    (insertDesc x l).filter (fun q => q.2 = sc) =
      (if x.2 = sc then [x] else []) ++ l.filter (fun q => q.2 = sc) := by
  induction l with
  | nil => by_cases hx : x.2 = sc <;> simp [insertDesc, hx]
  | cons y ys ih =>
    unfold insertDesc
    split
    case isTrue hyx =>
      by_cases hx : x.2 = sc <;> simp [List.filter_cons, hx]
    case isFalse hyx =>
      have hstep : x.2 < y.2 := lt_of_not_le hyx
      by_cases hy : y.2 = sc
      · have hx : x.2 ≠ sc := by
          intro hxs
          rw [hxs, hy] at hstep
          exact lt_irrefl sc hstep
        simp [List.filter_cons, hy, hx, ih]
      · simp [List.filter_cons, hy, ih]

theorem filter_sortDesc {α : Type} (l : List (α × Int)) (sc : Int) :
    (sortDesc l).filter (fun q => q.2 = sc) = l.filter (fun q => q.2 = sc) := by
  induction l with
  | nil => rfl
  | cons x xs ih =>
    show (insertDesc x (sortDesc xs)).filter _ = _
    rw [filter_insertDesc, ih, List.filter_cons]
    by_cases hx : x.2 = sc <;> simp [hx]

theorem serveLoop_spec (chunks : List CodeChunk) (scores : List Int) (top_n : Nat)
    (idxs : List Nat) :
    ∀ (seen : List String) (results : List (String × Int)),
      ∃ t, serveLoop chunks scores top_n seen results idxs = results ++ t ∧
        t.Sublist (idxs.map fun i =>
          ((chunks.getD i ⟨"", "", "", ""⟩).file_path, scores.getD i 0)) ∧
        (∀ q ∈ t, q.1 ∉ seen) ∧ (t.map Prod.fst).Nodup := by
  induction idxs with
  | nil =>
    intro seen results
    exact ⟨[], by simp [serveLoop], by simp, by simp, by simp⟩
  | cons idx rest ih =>
    intro seen results
    unfold serveLoop
    by_cases hfile : (chunks.getD idx ⟨"", "", "", ""⟩).file_path ∈ seen
    · rw [if_pos hfile]
      by_cases hlen : top_n ≤ results.length
      · rw [if_pos hlen]
        exact ⟨[], by simp, by simp, by simp, by simp⟩
      · rw [if_neg hlen]
        obtain ⟨t, ht, hsub, hseen, hnd⟩ := ih seen results
        exact ⟨t, ht, hsub.trans (List.sublist_cons_self _ _), hseen, hnd⟩
    · rw [if_neg hfile]
      by_cases hlen : top_n ≤ (results ++
          [((chunks.getD idx ⟨"", "", "", ""⟩).file_path, scores.getD idx 0)]).length
      · rw [if_pos hlen]
        refine ⟨[((chunks.getD idx ⟨"", "", "", ""⟩).file_path, scores.getD idx 0)],
          rfl, ?_, ?_, by simp⟩
        · rw [List.map_cons]
          exact (List.nil_sublist _).cons₂ _
        · intro q hq
          rw [List.mem_singleton.mp hq]
          exact hfile
      · rw [if_neg hlen]
        obtain ⟨t, ht, hsub, hseen, hnd⟩ :=
          ih ((chunks.getD idx ⟨"", "", "", ""⟩).file_path :: seen)
            (results ++ [((chunks.getD idx ⟨"", "", "", ""⟩).file_path, scores.getD idx 0)])
        refine ⟨((chunks.getD idx ⟨"", "", "", ""⟩).file_path, scores.getD idx 0) :: t,
          by rw [ht, List.append_assoc]; rfl, ?_, ?_, ?_⟩
        · rw [List.map_cons]
          exact hsub.cons₂ _
        · intro q hq
          rcases List.mem_cons.mp hq with rfl | hq
          · exact hfile
          · exact fun hmem => hseen q hq (List.mem_cons_of_mem _ hmem)
        · rw [List.map_cons, List.nodup_cons]
          refine ⟨fun hmem => ?_, hnd⟩
          obtain ⟨q, hq, hqf⟩ := List.mem_map.mp hmem
          exact hseen q hq (by rw [hqf]; exact List.mem_cons_self _ _)

theorem sortedIndices_pairwise (scores : List Int) :
    (sortedIndices scores).Pairwise fun i j => scores.getD j 0 ≤ scores.getD i 0 := by
  rw [sortedIndices, List.pairwise_map]
  have hsnd : ∀ p ∈ sortDesc ((List.range scores.length).map fun i => (i, scores.getD i 0)),
      p.2 = scores.getD p.1 0 := by
    intro p hp
    have hp' := (sortDesc_perm _).mem_iff.mp hp
    obtain ⟨i, _, rfl⟩ := List.mem_map.mp hp'
    rfl
  exact (sortDesc_sorted _).imp_of_mem fun {a b} ha hb h => by
    rw [← hsnd _ ha, ← hsnd _ hb]
    exact h

theorem backend_window_sorted (chunks : List CodeChunk) (scores : List Int) (top_n : Nat) :
    (((sortedIndices scores).take top_n).map fun i =>
        ((chunks.getD i ⟨"", "", "", ""⟩).file_path, scores.getD i 0)).Pairwise
      fun a b => b.2 ≤ a.2 := by
  rw [List.pairwise_map]
  exact (sortedIndices_pairwise scores).sublist (List.take_sublist _ _)

def exChunks : List CodeChunk :=
  [⟨"a.py", "function", "f", "def f"⟩, ⟨"a.py", "class", "C", "class C"⟩,
   ⟨"b.py", "function", "g", "def g"⟩]

/-- C3, counterexample: with two chunks of `a.py` scoring 10 and 9 and one
chunk of `b.py` scoring 8, the offline search returns the top-2 files
`a.py, b.py`, but `BM25Backend.search` truncates to the 2 highest-scoring
chunks (both of `a.py`) before de-duplicating by file and returns only
`a.py`, not the 2 highest-scoring files. -/
theorem backend_search_truncates_before_file_dedup :
    bm25_search exChunks [10, 9, 8] 2 = [("a.py", 10), ("b.py", 8)] ∧
    bm25_backend_search exChunks [10, 9, 8] 2 = [("a.py", 10)] ∧
    bm25_backend_search exChunks [10, 9, 8] 2 ≠ bm25_search exChunks [10, 9, 8] 2 :=
  ⟨by decide, by decide, by decide⟩

/-- C3, amended: the offline `search` assigns each file the maximum score
among its chunks and returns the first `top_n` files of the stable descending
order (so scores descend and ties stay in first-occurrence order of the chunk
list, the order `specFileScores` lists the files in), with all scored files
returned when fewer than `top_n` exist.  The serve-time `BM25Backend.search`
instead examines only the `top_n` highest-scoring chunk indices before
de-duplicating by file: its results are distinct files in descending score
order, each paired with the score and file of one of those top chunks, and at
most `top_n` many — but possibly fewer than `top_n` even when `top_n` scored
files exist. -/
theorem bm25_ranking_spec (chunks : List CodeChunk) (scores : List Int) (top_n : Nat) :
    bm25_search chunks scores top_n =
      (sortDesc (specFileScores (filePairs chunks scores))).take top_n ∧
    (bm25_search chunks scores top_n).Pairwise (fun a b => b.2 ≤ a.2) ∧
    (∀ sc : Int,
      (sortDesc (specFileScores (filePairs chunks scores))).filter (fun q => q.2 = sc) =
        (specFileScores (filePairs chunks scores)).filter fun q => q.2 = sc) ∧
    (bm25_search chunks scores top_n).length =
      min top_n (firstOcc ((filePairs chunks scores).map Prod.fst)).length ∧
    ((bm25_backend_search chunks scores top_n).map Prod.fst).Nodup ∧
    (bm25_backend_search chunks scores top_n).Pairwise (fun a b => b.2 ≤ a.2) ∧
    (bm25_backend_search chunks scores top_n).length ≤ top_n ∧
    ∀ q ∈ bm25_backend_search chunks scores top_n,
      ∃ i ∈ (sortedIndices scores).take top_n,
        q.1 = (chunks.getD i ⟨"", "", "", ""⟩).file_path ∧ q.2 = scores.getD i 0 := by
  obtain ⟨t, ht, hsub, hseen, hnd⟩ :=
    serveLoop_spec chunks scores top_n ((sortedIndices scores).take top_n) [] []
  have hbs : bm25_backend_search chunks scores top_n = t := by
    rw [bm25_backend_search, ht, List.nil_append]
  refine ⟨?_, ?_, ?_, ?_, ?_, ?_, ?_, ?_⟩
  · rw [bm25_search, file_scores_eq_spec]
  · rw [bm25_search]
    exact (sortDesc_sorted _).sublist (List.take_sublist _ _)
  · intro sc
    exact filter_sortDesc _ sc
  · rw [bm25_search, List.length_take, file_scores_eq_spec]
    congr 1
    rw [(sortDesc_perm _).length_eq, specFileScores, List.length_map]
  · rw [hbs]
    exact hnd
  · rw [hbs]
    exact (backend_window_sorted chunks scores top_n).sublist hsub
  · rw [hbs]
    calc t.length ≤ (((sortedIndices scores).take top_n).map fun i =>
          ((chunks.getD i ⟨"", "", "", ""⟩).file_path, scores.getD i 0)).length :=
        hsub.length_le
      _ = ((sortedIndices scores).take top_n).length := List.length_map _ _
      _ ≤ top_n := by
        rw [List.length_take]
        exact min_le_left _ _
  · intro q hq
    rw [hbs] at hq
    obtain ⟨i, hi, hqe⟩ := List.mem_map.mp (hsub.subset hq)
    exact ⟨i, hi, by rw [← hqe], by rw [← hqe]⟩

/-- C3, witness: the serve-time clause of the amended claim applied at a
concrete result entry. -/
theorem bm25_ranking_spec_witness :
    ∃ i ∈ (sortedIndices [10, 9, 8]).take 2,
      ("a.py", (10 : Int)).1 = (exChunks.getD i ⟨"", "", "", ""⟩).file_path ∧
      ("a.py", (10 : Int)).2 = [10, 9, 8].getD i 0 :=
  (bm25_ranking_spec exChunks [10, 9, 8] 2).2.2.2.2.2.2.2 ("a.py", 10) (by decide)

/-! ## BM25Backend index loading (codecompass-cli/codecompass/search.py) -/

/-- The state of the persisted index artifact as `_load` encounters it:
absent, present but not deserializable (a corrupt pickle, or a bundle missing
its `index`/`chunks` keys), or a well-formed bundle — abstracted as the chunk
list with the scores the model assigns for the query. -/
inductive IndexArtifact where
  | missing
  | malformed
  | good (chunks : List CodeChunk) (scores : List Int)
deriving DecidableEq, Repr

/-- The errors a serve-time search can surface: the `FileNotFoundError`
raised by `_load`, with its message, or the deserialization error escaping
`pickle.load` (or the key lookups) on a malformed artifact. -/
inductive SearchError where
  | fileNotFound (msg : String)
  | unpicklingError
deriving DecidableEq, Repr

def isFileNotFound : SearchError → Bool
  | .fileNotFound _ => true
  | .unpicklingError => false

/-- Embedding of `BM25Backend._load`: only absence of the artifact produces
the typed not-found error; a malformed artifact raises whatever
`pickle.load` raises. -/
def backend_load (index_path : String) (art : IndexArtifact) :
    Except SearchError (List CodeChunk × List Int) :=
  match art with
  | .missing => .error (.fileNotFound ("BM25 index not found at " ++ index_path ++
      ". Build it with: python data_processing/build_bm25_index.py --repo <path>"))
  | .malformed => .error .unpicklingError
  | .good chunks scores => .ok (chunks, scores)

/-- Embedding of the serve-time `search` entry point: `_load`, then rank. -/
def backend_search (index_path : String) (art : IndexArtifact) (top_n : Nat) :
    Except SearchError (List (String × Int)) :=
  match backend_load index_path art with
  | .error e => .error e
  | .ok (chunks, scores) => .ok (bm25_backend_search chunks scores top_n)

/-- C8, counterexample: a ranking search over a malformed index artifact
surfaces the raw deserialization error, not the typed "index not found"
error the claim promises for the malformed case. -/
theorem malformed_index_error_counterexample :
    backend_search "bm25_index.pkl" .malformed 8 = .error .unpicklingError ∧
    isFileNotFound .unpicklingError = false :=
  ⟨rfl, rfl⟩

/-- C8, amended: a search attempted while the artifact is missing fails with
the typed not-found error whose message carries the expected index location
and the build command; a malformed artifact instead surfaces the raw
deserialization error; and with a loaded index the search never produces the
not-found error — a query matching nothing still returns `ok` (the empty
list when the index holds no chunks), never this error. -/
theorem index_not_found_error_spec (index_path : String) (chunks : List CodeChunk)
    (scores : List Int) (top_n : Nat) :
    backend_search index_path .missing top_n =
      .error (.fileNotFound ("BM25 index not found at " ++ index_path ++
        ". Build it with: python data_processing/build_bm25_index.py --repo <path>")) ∧
    backend_search index_path .malformed top_n = .error .unpicklingError ∧
    backend_search index_path (.good chunks scores) top_n =
      .ok (bm25_backend_search chunks scores top_n) ∧
    backend_search index_path (.good [] []) top_n = .ok [] := by
  refine ⟨rfl, rfl, rfl, ?_⟩
  have h : bm25_backend_search [] [] top_n = [] := by
    rw [bm25_backend_search, show sortedIndices [] = [] from rfl, List.take_nil]
    rfl
  simp [backend_search, backend_load, h]

end CodeCompass

